import Mathlib

/-!
Verification development for ART's batch-rename pattern engine
(src/rtgui/filecatalog_rename.cc), the path-name helpers it uses
(src/rtgui/pathutils.cc), and the inspector image cache glue.

Strings are modelled as `List Char` (one entry per unicode character,
matching Glib::ustring character indexing).  The non-Windows (`#else`)
branches of the C++ are embedded, so the only path separator is '/'.
-/

namespace ART

/-- Characters of a Lean string literal, used to write test inputs. -/
def cs (s : String) : List Char := s.data

/-- C `isspace` in the C locale (also the whitespace set " \t\f\v\n\r"
used by pathutils.cc). -/
def isspace (c : Char) : Bool :=
  c = ' ' || c = '\t' || c = '\n' || c = '\x0b' || c = '\x0c' || c = '\r'

/-- Character read at position `i`; out-of-range reads yield the NUL
terminator of the underlying buffer (the behaviour of reading the
char at index `size` of a C++ string's storage). -/
def charAtNul (s : List Char) (i : Nat) : Char := s.getD i (Char.ofNat 0)

/-- Glib G_IS_DIR_SEPARATOR on Unix: only '/'. -/
def G_IS_DIR_SEPARATOR (c : Char) : Bool := c = '/'

/-- filecatalog_rename.cc is_valid_char, non-Windows branch. -/
def is_valid_char (c : Char) (allow_sep : Bool) : Bool :=
  if G_IS_DIR_SEPARATOR c then allow_sep else decide (c ≠ '/')

/-- Unicode "division slash" U+2215, the placeholder make_valid uses for
a literal '/'. -/
def divisionSlash : Char := '∕'

/-- Per-character substitution performed by make_valid. -/
def make_valid_char (c : Char) (allow_sep : Bool) : Char :=
  if !is_valid_char c allow_sep then
    if c = '/' then divisionSlash else '_'
  else c

/-- filecatalog_rename.cc make_valid: substitute every invalid character,
mapping '/' to the division slash and anything else invalid to '_'. -/
def make_valid (s : List Char) (allow_sep : Bool) : List Char :=
  s.map (fun c => make_valid_char c allow_sep)

/-- Index of the last character of `l` satisfying `p`
(std::string find_last_of, `none` for npos). -/
def find_last_of (p : Char → Bool) : List Char → Option Nat
  | [] => none
  | c :: rest =>
    match find_last_of p rest with
    | some j => some (j + 1)
    | none => if p c then some 0 else none

/-- glib g_path_get_basename (Unix branch): "." for the empty string,
"/" when the path is all separators, otherwise the last component after
stripping trailing separators. -/
def path_get_basename (s : List Char) : List Char :=
  if s = [] then ['.']
  else
    let t := (s.reverse.dropWhile (fun c => c = '/')).reverse
    if t = [] then ['/']
    else (t.reverse.takeWhile (fun c => c ≠ '/')).reverse

/-- glib g_path_get_dirname (Unix branch): "." when there is no
separator, otherwise everything before the last run of separators
(keeping a lone root "/"). -/
def path_get_dirname (s : List Char) : List Char :=
  match find_last_of (fun c => c = '/') s with
  | none => ['.']
  | some j =>
    let t := s.take j
    let u := t.reverse.dropWhile (fun c => c = '/')
    if u = [] then ['/'] else u.reverse

/-- glib g_path_is_absolute on Unix: starts with '/'. -/
def path_is_absolute (s : List Char) : Bool := s.head? = some '/'

/-- glib g_build_filename restricted to two components (Unix): joins with
a single separator, dropping extra separators at the joint; empty
components are skipped. -/
def build_filename (a b : List Char) : List Char :=
  if a = [] then b
  else if b = [] then a
  else (a.reverse.dropWhile (fun c => c = '/')).reverse
       ++ '/' :: b.dropWhile (fun c => c = '/')

/-- pathutils.cc removeExtension: drop the basename's extension (the part
from its last dot on) when that dot lies strictly after the basename's
last whitespace character; otherwise return the name unchanged. -/
def removeExtension (filename : List Char) : List Char :=
  let bname := path_get_basename filename
  let lastdot := find_last_of (fun c => c = '.') bname
  let lastwhitespace := find_last_of isspace bname
  match lastdot with
  | none => filename
  | some d =>
    match lastwhitespace with
    | none => filename.take (filename.length - (bname.length - d))
    | some w =>
      if d > w then filename.take (filename.length - (bname.length - d))
      else filename

/-- pathutils.cc getExtension: the characters after the basename's last
dot under the same condition as removeExtension, else "". -/
def getExtension (filename : List Char) : List Char :=
  let bname := path_get_basename filename
  let lastdot := find_last_of (fun c => c = '.') bname
  let lastwhitespace := find_last_of isspace bname
  match lastdot with
  | none => []
  | some d =>
    match lastwhitespace with
    | none => filename.drop (filename.length - (bname.length - d) + 1)
    | some w =>
      if d > w then filename.drop (filename.length - (bname.length - d) + 1)
      else []

/-- Fuel-driven digit expansion; any fuel above the number itself is
enough, since the value shrinks by a factor of ten each step. -/
def natDigitsAux : Nat → Nat → List Char
  | 0, _ => []
  | fuel + 1, n =>
    if n < 10 then [Char.ofNat (48 + n)]
    else natDigitsAux fuel (n / 10) ++ [Char.ofNat (48 + n % 10)]

/-- Decimal digits of a natural number, most significant first
(std::to_string on a non-negative value). -/
def natDigits (n : Nat) : List Char := natDigitsAux (n + 1) n

/-- std::to_string on an integer (the progressive counter is a C int;
the embedding uses unbounded integers). -/
def intDigits (k : Int) : List Char :=
  if k < 0 then '-' :: natDigits (-k).toNat else natDigits k.toNat

/-- Numeric value of a digit string, inverse of natDigits. -/
def digitsVal (l : List Char) : Nat :=
  l.foldl (fun a c => a * 10 + (c.toNat - 48)) 0

/-- Left zero-padding of ProgressivePattern: prepend '0's up to `pad`
characters (no padding when the string is already long enough). -/
def padZero (pad : Nat) (s : List Char) : List Char :=
  if s.length < pad then List.replicate (pad - s.length) '0' ++ s else s

/-- The metadata-driven field renderers of filecatalog_rename.cc.
Renderers whose text comes from an external formatter (strftime, the
FramesMetaData aperture/shutter/exposure formatting, double rounding)
are looked up from the metadata record; everything composed inside
filecatalog_rename.cc itself is computed here. -/
inductive DataKind
  | stem | ext | filenum
  | date (c : Char)
  | cameraCM | cameraM | cameraN
  | rating | iso | fnumber | lens | focal | expcomp | shutter
  | percent
deriving DecidableEq, Repr

/-- A compiled pattern element (one Pattern subclass instance). -/
inductive Field
  | fixed (s : List Char)
  | progressive (pad : Nat)
  | framesData (k : DataKind)
  | tag (t : List Char)
deriving DecidableEq, Repr

/-- The FramesMetaData record seen by the renderers.  String-returning
accessors and external formatters are record fields; `tagLookup` models
the Exiv2 key search ('none' covering a missing key or an exception). -/
structure FramesMetaData where
  fileName : List Char
  makeStr : List Char
  modelStr : List Char
  lensStr : List Char
  rating : Int
  iso : Int
  dateStr : Char → List Char
  apertureStr : List Char
  focalStr : List Char
  expcompStr : List Char
  shutterStr : List Char
  tagLookup : List Char → Option (List Char)

/-- Params::Normalization. -/
inductive Normalization | off | uppercase | lowercase
deriving DecidableEq, Repr

/-- Params::OnExistingAction. -/
inductive OnExistingAction | skip | rename
deriving DecidableEq, Repr

/-- The rename Params record (GUI widgets omitted). -/
structure Params where
  basedir : List Char
  pattern : List Field
  sidecars : List (List Char)
  name_norm : Normalization
  ext_norm : Normalization
  allow_whitespace : Bool
  on_existing : OnExistingAction
  progressive_number : Int

/-- Dispatch table for the single-character directives that build a
FramesDataPattern (parse_pattern's switch, minus 'n' and 'T'). -/
def dirOfChar (c : Char) : Option DataKind :=
  if c = 'f' then some .stem
  else if c = 'e' then some .ext
  else if c = '#' then some .filenum
  else if c = 'm' || c = 'd' || c = 'Y' || c = 'y' ||
          c = 'a' || c = 'A' || c = 'b' || c = 'B' then some (.date c)
  else if c = 'C' then some .cameraCM
  else if c = 'M' then some .cameraM
  else if c = 'N' then some .cameraN
  else if c = 'r' then some .rating
  else if c = 'I' then some .iso
  else if c = 'F' then some .fnumber
  else if c = 'L' then some .lens
  else if c = 'l' then some .focal
  else if c = 'E' then some .expcomp
  else if c = 's' then some .shutter
  else if c = '%' then some .percent
  else none

/-- True when the character is accepted after a '%' sigil. -/
def validDirective (c : Char) : Bool :=
  (dirOfChar c).isSome || c = 'n' || c = 'T'

/-- Append the pending literal run (kept reversed) as a FixedPattern;
the FixedPattern constructor sanitizes with make_valid(s, true). -/
def flushLit (lit : List Char) (acc : List Field) : List Field :=
  if lit = [] then acc else acc ++ [Field.fixed (make_valid lit.reverse true)]

/-- Scanning loop of parse_pattern: `rem` is the unread input, `lit` the
pending literal run (reversed), `acc` the fields built so far. -/
def parse_loop : List Char → List Char → List Field → Option (List Field)
  | [], lit, acc => some (flushLit lit acc)
  | c :: rest, lit, acc =>
    if c = '%' then
      match rest with
      | [] => none
      | d :: rest2 =>
        let acc' := flushLit lit acc
        if d = 'n' then
          match rest2 with
          | e :: rest3 =>
            if e.isDigit then
              parse_loop rest3 [] (acc' ++ [Field.progressive (e.toNat - 48)])
            else
              parse_loop (e :: rest3) [] (acc' ++ [Field.progressive 0])
          | [] => parse_loop [] [] (acc' ++ [Field.progressive 0])
        else if d = 'T' then
          match rest2 with
          | '[' :: rest3 =>
            if (rest3.dropWhile (fun c => c ≠ ']')) = [] then none
            else
              parse_loop (rest3.dropWhile (fun c => c ≠ ']')).tail []
                (acc' ++ [Field.tag (rest3.takeWhile (fun c => c ≠ ']'))])
          | _ => none
        else
          match dirOfChar d with
          | some k => parse_loop rest2 [] (acc' ++ [Field.framesData k])
          | none => none
    else
      if is_valid_char c true then parse_loop rest (c :: lit) acc else none
termination_by rem _ _ => rem.length
decreasing_by
  all_goals first
    | (simp only [List.length_cons]; omega)
    | (have h9 : (rest3.dropWhile (fun c => decide (c ≠ ']'))).Sublist rest3 :=
         List.dropWhile_sublist _
       have h10 := h9.length_le
       simp only [List.length_cons, List.length_tail]
       omega)

/-- filecatalog_rename.cc parse_pattern: scan the text, then reject an
empty pattern and a first literal segment that is an absolute path. -/
def parse_pattern (s : List Char) : Option (List Field) :=
  match parse_loop s [] [] with
  | none => none
  | some fields =>
    if fields = [] then none
    else
      match fields.head? with
      | some (Field.fixed t) => if path_is_absolute t then none else some fields
      | _ => some fields

/-- Raw (pre-sanitization) text of a FramesDataPattern renderer. -/
def rawRender (fd : FramesMetaData) : DataKind → List Char
  | .stem => removeExtension (path_get_basename fd.fileName)
  | .ext => getExtension fd.fileName
  | .filenum =>
    ((removeExtension (path_get_basename fd.fileName)).reverse.takeWhile
      Char.isDigit).reverse
  | .date c => fd.dateStr c
  | .cameraCM => fd.makeStr ++ ' ' :: fd.modelStr
  | .cameraM => fd.makeStr
  | .cameraN => fd.modelStr
  | .rating => intDigits fd.rating
  | .iso => intDigits fd.iso
  | .fnumber => fd.apertureStr
  | .lens => fd.lensStr
  | .focal => fd.focalStr
  | .expcomp => fd.expcompStr
  | .shutter => fd.shutterStr
  | .percent => ['%']

/-- TagPattern::operator(): check the namespace of the key, look
it up, sanitize the value; anything else degrades to "". -/
def tagRender (fd : FramesMetaData) (t : List Char) : List Char :=
  if (cs "Exif.").isPrefixOf t ∨ (cs "Iptc.").isPrefixOf t ∨
     (cs "Xmp.").isPrefixOf t then
    match fd.tagLookup t with
    | some v => make_valid v false
    | none => []
  else []

/-- Rendering of one field at counter value `k`; returns the text and
the counter after the call (ProgressivePattern does idx_++). -/
def renderField (fd : FramesMetaData) (f : Field) (k : Int) :
    List Char × Int :=
  match f with
  | .fixed s => (s, k)
  | .progressive pad => (padZero pad (intDigits k), k + 1)
  | .framesData dk => (make_valid (rawRender fd dk) false, k)
  | .tag t => (tagRender fd t, k)

/-- Concatenation of all field renderings, threading the shared
progressive counter left to right. -/
def renderFields (fd : FramesMetaData) : List Field → Int → List Char × Int
  | [], k => ([], k)
  | f :: rest, k =>
    let r := renderField fd f k
    let r2 := renderFields fd rest r.2
    (r.1 ++ r2.1, r2.2)

/-- Number of ProgressivePattern fields in a compiled pattern. -/
def countProg : List Field → Nat
  | [] => 0
  | Field.progressive _ :: rest => countProg rest + 1
  | _ :: rest => countProg rest

/-- Per-character normalization of get_new_name: whitespace replaced by
'_' unless allowed, then the case policy (C toupper/tolower act on
ASCII letters only, as Char.toUpper/toLower do). -/
def normChar (allow_ws : Bool) (nm : Normalization) (c : Char) : Char :=
  let c1 := if !allow_ws && isspace c then '_' else c
  match nm with
  | .uppercase => c1.toUpper
  | .lowercase => c1.toLower
  | .off => c1

/-- filecatalog_rename.cc get_new_name: render the pattern, split the
extension off when nonempty, normalize stem and extension separately,
rejoin, and prepend the base directory unless empty or ".".  Returns
the name and the updated progressive counter. -/
def get_new_name (p : Params) (fd : FramesMetaData) : List Char × Int :=
  let r := renderFields fd p.pattern p.progressive_number
  let name := r.1
  let e := getExtension name
  let stem := if e = [] then name else removeExtension name
  let extPart := if e = [] then ([] : List Char) else '.' :: e
  let ret := stem.map (normChar p.allow_whitespace p.name_norm)
             ++ extPart.map (normChar p.allow_whitespace p.ext_norm)
  (if p.basedir ≠ [] ∧ p.basedir ≠ ['.'] then build_filename p.basedir ret
   else ret, r.2)

/-- Name computed for an entry by get_targets (before conflict
resolution). -/
def computed_newname (p : Params) (fd : FramesMetaData) : List Char :=
  (get_new_name p fd).1

/-- Destination path computed for an entry by get_targets (before
conflict resolution): the new name itself when absolute, otherwise
joined under the source file's directory. -/
def computed_newpath (p : Params) (fd : FramesMetaData) : List Char :=
  let nn := computed_newname p fd
  if path_is_absolute nn then nn
  else build_filename (path_get_dirname fd.fileName) nn

/-- Start-trim scan of filecatalog_rename.cc trim: advance `i` over
whitespace.  The C++ loop has no bound check; the read of the position
one past the last character yields the buffer's NUL terminator (not
whitespace), which stops the loop, and is modelled by charAtNul. -/
def trimStartIdx (s : List Char) (i : Nat) : Nat :=
  if h : isspace (charAtNul s i) then trimStartIdx s (i + 1) else i
termination_by s.length - i
decreasing_by
  have hi : i < s.length := by
    by_contra hge
    simp only [charAtNul, List.getD_eq_getElem?_getD] at h
    rw [List.getElem?_eq_none (by omega)] at h
    simp [isspace] at h
  omega

/-- End-trim scan of trim: decrease `n` while the previous character is
whitespace (this loop does check `n > 0`). -/
def trimEndIdx (s : List Char) (n : Nat) : Nat :=
  if 0 < n ∧ isspace (charAtNul s (n - 1)) then trimEndIdx s (n - 1) else n
termination_by n
decreasing_by omega

/-- filecatalog_rename.cc trim.  `substr(i, n-i)` is size_t arithmetic:
when n < i the count wraps around and substr clamps, yielding the rest
of the string from `i` (which is empty in every reachable case). -/
def trim (s : List Char) (doStart doEnd : Bool) : List Char :=
  let i := if doStart then trimStartIdx s 0 else 0
  let n := if doEnd then trimEndIdx s s.length else s.length
  if i ≤ n then (s.drop i).take (n - i) else s.drop i

/-- Scanning loop of parse_sidecars over character positions.  After a
';' at position `i` the C++ does `++i; prev = i;` and the `for` loop
increments `i` again, so the character at `i + 1` is never examined. -/
def parse_sidecars_loop (s : List Char) (i prev : Nat)
    (acc : List (List Char)) : List (List Char) :=
  if h : i < s.length then
    if s[i] = ';' then
      parse_sidecars_loop s (i + 2) (i + 1)
        (if trim ((s.drop prev).take (i - prev)) true true = [] then acc
         else acc ++ [trim ((s.drop prev).take (i - prev)) true true])
    else
      parse_sidecars_loop s (i + 1) prev acc
  else
    if prev < s.length then
      if trim (s.drop prev) true true = [] then acc
      else acc ++ [trim (s.drop prev) true true]
    else acc
termination_by s.length - i
decreasing_by all_goals omega

/-- filecatalog_rename.cc parse_sidecars (the C++ always returns true;
the embedding returns the parsed list). -/
def parse_sidecars (s : List Char) : List (List Char) :=
  parse_sidecars_loop s 0 0 []

/-- Checked variant of the start-trim scan: `none` marks a read of a
character position that is not strictly below the string length. -/
def trimStartChecked (s : List Char) (i : Nat) : Option Nat :=
  if h : i < s.length then
    if isspace s[i] then trimStartChecked s (i + 1) else some i
  else none
termination_by s.length - i
decreasing_by omega

/-- Checked variant of the end-trim scan: `none` marks an out-of-range
read (the loop reads position n-1 only when n > 0). -/
def trimEndChecked (s : List Char) (n : Nat) : Option Nat :=
  if 0 < n then
    if h : n - 1 < s.length then
      if isspace s[n - 1] then trimEndChecked s (n - 1) else some n
    else none
  else some n
termination_by n
decreasing_by omega

/-- Environment of get_targets: the set of existing filesystem paths
(finite, as a list) and the external options.getParamFile naming
convention for the application's parameter-file sidecar. -/
structure Env where
  fs : List (List Char)
  paramFile : List Char → List Char

/-- Conflict-resolution candidate name number `i`:
stem ++ "_" ++ i ++ dotted-extension. -/
def cand_name (bn extD : List Char) (i : Nat) : List Char :=
  bn ++ '_' :: natDigits i ++ extD

/-- The `i`-th candidate name probed for an entry under the rename
conflict policy. -/
def rename_candidate (p : Params) (fd : FramesMetaData) (i : Nat) :
    List Char :=
  cand_name (removeExtension (computed_newname p fd))
    (if getExtension (computed_newname p fd) = [] then []
     else '.' :: getExtension (computed_newname p fd)) i

/-- The path at which the `i`-th candidate is probed: the C++ always
joins the candidate name under the source file's directory. -/
def rename_candidate_path (p : Params) (fd : FramesMetaData) (i : Nat) :
    List Char :=
  build_filename (path_get_dirname fd.fileName) (rename_candidate p fd i)

/-- Probing loop of get_targets under the rename policy, returning the
accepted (name, path).  The C++ `for (int i = 1; ; ++i)` has no bound;
the fuel used by get_targets (one more than the number of existing
paths) is shown sufficient in the theorems below. -/
def probe_loop (env : Env) (p : Params) (fd : FramesMetaData) :
    Nat → Nat → List Char × List Char
  | i, 0 => (rename_candidate p fd i, rename_candidate_path p fd i)
  | i, fuel + 1 =>
    if rename_candidate_path p fd i ∈ env.fs then
      probe_loop env p fd (i + 1) fuel
    else (rename_candidate p fd i, rename_candidate_path p fd i)

/-- The optional parameter-file pair of get_targets: present when the
source's parameter file exists, with destination derived from the
(resolved) new path. -/
def param_file_part (env : Env) (fn np : List Char) :
    List (List Char × List Char) :=
  if env.paramFile fn ∈ env.fs then [(env.paramFile fn, env.paramFile np)]
  else []

/-- Sidecar loop of get_targets: each configured suffix yields a source
and destination path ('+' appends after the full name, otherwise the
suffix replaces the extension); the pair is appended when the source
exists and is not already a source in `out` (the `ok` lambda).  An
empty suffix reads the NUL past the end, modelled by charAtNul. -/
def sidecar_loop (env : Env) (fn base_fn newpath base_newpath : List Char) :
    List (List Char) → List (List Char × List Char) →
    List (List Char × List Char)
  | [], out => out
  | s :: rest, out =>
    let plus := charAtNul s 0 = '+'
    let orig := if plus then fn ++ '.' :: s.drop 1 else base_fn ++ '.' :: s
    let nw := if plus then newpath ++ '.' :: s.drop 1
              else base_newpath ++ '.' :: s
    let out' := if orig ∈ env.fs ∧ (∀ q ∈ out, q.1 ≠ orig)
                then out ++ [(orig, nw)] else out
    sidecar_loop env fn base_fn newpath base_newpath rest out'

/-- The part of get_targets after conflict resolution: primary pair,
then the parameter-file pair, then the configured sidecars. -/
def sidecar_phase (env : Env) (p : Params) (fn np : List Char) :
    List (List Char × List Char) :=
  let out1 := (fn, np) :: param_file_part env fn np
  if p.sidecars = [] then out1
  else
    sidecar_loop env fn (removeExtension fn) np (removeExtension np)
      p.sidecars out1

/-- filecatalog_rename.cc get_targets: compute the destination, resolve
a conflict with the existing-path policy (skip gives the empty plan),
then list primary, parameter file and sidecars. -/
def get_targets (env : Env) (p : Params) (fd : FramesMetaData) :
    List (List Char × List Char) :=
  let fn := fd.fileName
  let newpath := computed_newpath p fd
  if newpath ∈ env.fs then
    match p.on_existing with
    | .skip => []
    | .rename =>
      let r := probe_loop env p fd 1 (env.fs.length + 1)
      sidecar_phase env p fn r.2
  else sidecar_phase env p fn newpath

/-- Modelled from the spec (section 4.1 PlanTargets wording, for
comparison with the sidecar loop of the source): for each configured
suffix in order, the sidecar source is sourcePath + "." + suffix
without the '+' when the suffix begins with '+', and otherwise
stem(sourcePath) + "." + suffix; a pair is included only if its source
exists on disk and is not already present as a source in the output
list, whose sources so far are `prior`. -/
def sidecar_pairs_spec (fs : List (List Char)) (src dst : List Char) :
    List (List Char) → List (List Char) → List (List Char × List Char)
  | [], _ => []
  | s :: rest, prior =>
    let plus := charAtNul s 0 = '+'
    let orig := if plus then src ++ '.' :: s.drop 1
                else removeExtension src ++ '.' :: s
    let nw := if plus then dst ++ '.' :: s.drop 1
              else removeExtension dst ++ '.' :: s
    if orig ∈ fs ∧ orig ∉ prior then
      (orig, nw) :: sidecar_pairs_spec fs src dst rest (prior ++ [orig])
    else sidecar_pairs_spec fs src dst rest prior

/-- Modelled from the spec (section 4.1 Evaluate wording): the extension
of a candidate name is the text after the last dot of the final path
segment, recognized only when no whitespace character occurs after
that dot; otherwise it is empty. -/
def specExtension (f : List Char) : List Char :=
  let b := path_get_basename f
  match find_last_of (fun c => c = '.') b with
  | none => []
  | some d =>
    if (b.drop (d + 1)).all (fun c => !isspace c) then b.drop (d + 1) else []

/-- Modelled from the spec: the bounded path-keyed cache used by
InspectorArea (the cache class itself, declared in inspector.h, is not
among the sources; sections 3 and 4.2 describe it).  Entries are kept
most-recently-used first. -/
structure LRUCache (β : Type) where
  entries : List (List Char × β)
  cap : Nat
deriving DecidableEq

/-- Modelled from the spec: value stored under a key, without touching
recency. -/
def LRUCache.lookup {β : Type} (c : LRUCache β) (k : List Char) :
    Option β :=
  (c.entries.find? (fun q => q.1 == k)).map (fun q => q.2)

/-- Modelled from the spec: Get promotes a present entry to
most-recently-used and returns it; a miss leaves the cache unchanged
(the caller then decides whether to decode and insert). -/
def LRUCache.get {β : Type} (c : LRUCache β) (k : List Char) :
    Option β × LRUCache β :=
  match c.entries.find? (fun q => q.1 == k) with
  | some q => (some q.2, ⟨q :: c.entries.eraseP (fun r => r.1 == k), c.cap⟩)
  | none => (none, c)

/-- Modelled from the spec: insertion refreshes an already-present key
without duplicating storage, and evicts least-recently-used entries
until the size is within capacity. -/
def LRUCache.set {β : Type} (c : LRUCache β) (k : List Char) (v : β) :
    LRUCache β :=
  ⟨((k, v) :: c.entries.eraseP (fun r => r.1 == k)).take c.cap, c.cap⟩

/-- Modelled from the spec: Invalidate-all clears every entry. -/
def LRUCache.clearAll {β : Type} (c : LRUCache β) : LRUCache β :=
  ⟨[], c.cap⟩

/-- An empty cache of the given capacity (the InspectorArea
constructor). -/
def initCache (β : Type) (n : Nat) : LRUCache β := ⟨[], n⟩

/-- Capacity handed to the cache by the InspectorArea constructor:
std::max(options.maxInspectorBuffers, 1). -/
def inspectorCapacity (configured : Int) : Nat := (max configured 1).toNat

/-- Decode environment of InspectorBuffer: filesystem predicates and
the external PreviewImage decoder (path, extension, width, height),
returning a surface of abstract type σ or failure. -/
structure ImgEnv (σ : Type) where
  pathExists : List Char → Bool
  isDir : List Char → Bool
  decode : List Char → List Char → Int → Int → Option σ

/-- A decoded inspector buffer: imgPath stays empty on failure, exactly
as in the InspectorBuffer constructor. -/
structure InspectorBuffer (σ : Type) where
  imgPath : List Char
  surface : Option σ
deriving DecidableEq

/-- InspectorBuffer constructor (pathutils.cc part two): require a
nonempty, existing, non-directory path with a nonempty extension, then
decode; on any failure imgPath is left (or cleared to) empty. -/
def mkInspectorBuffer {σ : Type} (env : ImgEnv σ) (path : List Char)
    (w h : Int) : InspectorBuffer σ :=
  if path ≠ [] ∧ env.pathExists path = true ∧ env.isDir path = false then
    if getExtension path = [] then ⟨[], none⟩
    else
      match env.decode path (getExtension path) w h with
      | some s => ⟨path, some s⟩
      | none => ⟨[], none⟩
  else ⟨[], none⟩

/-- InspectorArea::doCacheImage: return the cached entry if present;
otherwise build a buffer and cache it only when the load succeeded
(res->imgPath nonempty); a failed load resets res and caches nothing. -/
def doCacheImage {σ : Type} (env : ImgEnv σ) (w h : Int)
    (st : LRUCache (InspectorBuffer σ)) (path : List Char) :
    Option (InspectorBuffer σ) × LRUCache (InspectorBuffer σ) :=
  match st.get path with
  | (some b, st') => (some b, st')
  | (none, st') =>
    if (mkInspectorBuffer env path w h).imgPath = [] then (none, st')
    else (some (mkInspectorBuffer env path w h),
          st'.set path (mkInspectorBuffer env path w h))

/-- InspectorArea::preloadImage: doCacheImage with the result
discarded. -/
def preloadImage {σ : Type} (env : ImgEnv σ) (w h : Int)
    (st : LRUCache (InspectorBuffer σ)) (path : List Char) :
    LRUCache (InspectorBuffer σ) :=
  (doCacheImage env w h st path).2

/-- The cache operations reachable from the GUI: a Get (doCacheImage),
a Preload, or Invalidate-all (deleteBuffers). -/
inductive CacheOp
  | getOp (p : List Char)
  | preloadOp (p : List Char)
  | invalidateAll
deriving DecidableEq, Repr

/-- One cache operation applied to the state. -/
def runOp {σ : Type} (env : ImgEnv σ) (w h : Int)
    (st : LRUCache (InspectorBuffer σ)) : CacheOp →
    LRUCache (InspectorBuffer σ)
  | .getOp p => (doCacheImage env w h st p).2
  | .preloadOp p => preloadImage env w h st p
  | .invalidateAll => st.clearAll

/-- A sequence of cache operations applied in order. -/
def runOps {σ : Type} (env : ImgEnv σ) (w h : Int)
    (ops : List CacheOp) (st : LRUCache (InspectorBuffer σ)) :
    LRUCache (InspectorBuffer σ) :=
  ops.foldl (fun s o => runOp env w h s o) st

/-- The disjunction of decode-failure causes named by the spec: empty
path, nonexistent path, directory, empty extension, or decoder
failure. -/
def decodeFails {σ : Type} (env : ImgEnv σ) (path : List Char)
    (w h : Int) : Prop :=
  path = [] ∨ env.pathExists path = false ∨ env.isDir path = true ∨
  getExtension path = [] ∨ env.decode path (getExtension path) w h = none

/-- Shape of an entry produced by the sidecar-list parser: nonempty,
whitespace-trimmed at both ends, and free of ';' beyond its first
character. -/
def goodSidecarEntry (e : List Char) : Prop :=
  e ≠ [] ∧
  (∀ c, e.head? = some c → isspace c = false) ∧
  (∀ c, e.getLast? = some c → isspace c = false) ∧
  ';' ∉ e.drop 1

/-- A metadata record with the given file name and inert external
collaborators, for concrete test scenarios. -/
def mkFD (fn : List Char) : FramesMetaData :=
  ⟨fn, [], [], [], 0, 0, fun _ => [], [], [], [], [], fun _ => none⟩

/-- Scenario: relative base directory "out", destination already taken,
rename policy. -/
def envRel : Env := ⟨[cs "d/a.cr2", cs "d/out/x.cr2"], fun f => f ++ cs ".arp"⟩

/-- Params for the relative-basedir conflict scenario. -/
def pRel : Params :=
  ⟨cs "out", [Field.fixed (cs "x.cr2")], [], .off, .off, true, .rename, 1⟩

/-- Scenario: absolute base directory "/out", destination already taken,
rename policy. -/
def envAbs : Env :=
  ⟨[cs "src/a.cr2", cs "/out/x.cr2"], fun f => f ++ cs ".arp"⟩

/-- Params for the absolute-basedir conflict scenario. -/
def pAbs : Params :=
  ⟨cs "/out", [Field.fixed (cs "x.cr2")], [], .off, .off, true, .rename, 1⟩

/-- Scenario: no conflict, one existing parameter file, one existing
replace-extension sidecar and one missing append-style sidecar. -/
def envPlan : Env :=
  ⟨[cs "img.cr2", cs "img.xmp", cs "img.cr2.arp"], fun f => f ++ cs ".arp"⟩

/-- Params for the sidecar-plan scenario. -/
def pPlan : Params :=
  ⟨cs "out", [Field.fixed (cs "x.cr2")], [cs "xmp", cs "+thumb"],
   .off, .off, true, .skip, 1⟩

/-- Metadata for the relative-basedir conflict scenario. -/
def fdRel : FramesMetaData := mkFD (cs "d/a.cr2")

/-- Metadata for the absolute-basedir conflict scenario. -/
def fdAbs : FramesMetaData := mkFD (cs "src/a.cr2")

/-- Metadata for the sidecar-plan scenario. -/
def fdPlan : FramesMetaData := mkFD (cs "img.cr2")

/-- Decode environment in which every load fails (nothing exists). -/
def envFail : ImgEnv Nat := ⟨fun _ => false, fun _ => false, fun _ _ _ _ => none⟩

/-- Decode environment in which a.png, b.png and c.png decode
successfully. -/
def envABC : ImgEnv Nat :=
  ⟨fun p => decide (p ∈ [cs "a.png", cs "b.png", cs "c.png"]),
   fun _ => false, fun _ _ _ _ => some 0⟩

/-! Theorems.  Helper lemmas come first, then one theorem per claim
(with its witness or counterexample where required). -/

theorem is_valid_char_true (c : Char) : is_valid_char c true = true := by
  by_cases hc : c = '/'
  · subst hc; decide
  · simp [is_valid_char, G_IS_DIR_SEPARATOR, hc]

theorem make_valid_char_false_ne_sep (c : Char) :
    make_valid_char c false ≠ '/' := by
  by_cases hc : c = '/'
  · subst hc; decide
  · simp [make_valid_char, is_valid_char, G_IS_DIR_SEPARATOR, hc]

theorem not_sep_mem_make_valid_false (l : List Char) :
    '/' ∉ make_valid l false := by
  intro h
  obtain ⟨c, _, he⟩ := List.mem_map.mp h
  exact make_valid_char_false_ne_sep c he

theorem make_valid_true_id (l : List Char) : make_valid l true = l := by
  have h : ∀ c : Char, make_valid_char c true = c := by
    intro c; simp [make_valid_char, is_valid_char_true]
  simp [make_valid, h]

theorem natDigitsAux_sound (fuel : Nat) : ∀ n : Nat, n < fuel →
    digitsVal (natDigitsAux fuel n) = n ∧
    ∀ c ∈ natDigitsAux fuel n, 48 ≤ c.toNat ∧ c.toNat ≤ 57 := by
  have hv : ∀ m : Nat, m < 10 → (Char.ofNat (48 + m)).toNat = 48 + m := by
    decide
  induction fuel with
  | zero => omega
  | succ fuel ih =>
    intro n hn
    by_cases h10 : n < 10
    · refine ⟨?_, ?_⟩
      · simp [natDigitsAux, h10, digitsVal, hv n h10]
      · intro c hc
        simp [natDigitsAux, h10] at hc
        subst hc
        rw [hv n h10]; omega
    · have hdiv : n / 10 < fuel := by
        have h1 : n / 10 < n := Nat.div_lt_self (by omega) (by omega)
        omega
      obtain ⟨ihv, ihm⟩ := ih (n / 10) hdiv
      have hsplit : natDigitsAux (fuel + 1) n =
          natDigitsAux fuel (n / 10) ++ [Char.ofNat (48 + n % 10)] := by
        simp [natDigitsAux, h10]
      refine ⟨?_, ?_⟩
      · rw [hsplit]
        have hfold : digitsVal (natDigitsAux fuel (n / 10) ++
            [Char.ofNat (48 + n % 10)]) =
            digitsVal (natDigitsAux fuel (n / 10)) * 10 +
            ((Char.ofNat (48 + n % 10)).toNat - 48) := by
          simp [digitsVal, List.foldl_append]
        rw [hfold, ihv, hv (n % 10) (Nat.mod_lt n (by omega))]
        have := Nat.div_add_mod n 10
        omega
      · intro c hc
        rw [hsplit] at hc
        rcases List.mem_append.mp hc with h | h
        · exact ihm c h
        · simp at h
          subst h
          have hm : n % 10 < 10 := Nat.mod_lt n (by omega)
          rw [hv (n % 10) hm]
          omega

theorem digitsVal_natDigits (n : Nat) : digitsVal (natDigits n) = n :=
  (natDigitsAux_sound (n + 1) n (by omega)).1

theorem natDigits_digit_bounds {c : Char} {n : Nat} (h : c ∈ natDigits n) :
    48 ≤ c.toNat ∧ c.toNat ≤ 57 :=
  (natDigitsAux_sound (n + 1) n (by omega)).2 c h

theorem natDigits_injective {a b : Nat} (h : natDigits a = natDigits b) :
    a = b := by
  have ha := digitsVal_natDigits a
  rw [h, digitsVal_natDigits] at ha
  omega

theorem sep_not_mem_natDigits (n : Nat) : '/' ∉ natDigits n := by
  intro h
  have hb := natDigits_digit_bounds h
  have hc : ('/' : Char).toNat = 47 := rfl
  omega

theorem sep_not_mem_intDigits (k : Int) : '/' ∉ intDigits k := by
  unfold intDigits
  split
  · intro h
    rcases List.mem_cons.mp h with h | h
    · exact absurd h (by decide)
    · exact sep_not_mem_natDigits _ h
  · exact sep_not_mem_natDigits _

theorem sep_not_mem_padZero (pad : Nat) (k : Int) :
    '/' ∉ padZero pad (intDigits k) := by
  unfold padZero
  split
  · intro h
    rcases List.mem_append.mp h with h | h
    · have := List.eq_of_mem_replicate h
      exact absurd this (by decide)
    · exact sep_not_mem_intDigits k h
  · exact sep_not_mem_intDigits k

/-- Claim C1: for every successfully compiled pattern and every metadata
record, no non-literal field's rendering contains a raw path separator;
a separator in a computed field's output is substituted, '/' mapping to
the division slash U+2215 and any other invalid character to '_'
(substitution preserves length, so nothing is dropped), while literal
segments pass through make_valid(s, true) unchanged. -/
theorem evaluate_no_raw_separator (s : List Char) (fl : List Field)
    (fd : FramesMetaData) (k : Int) (f : Field)
    (_hp : parse_pattern s = some fl) (hf : f ∈ fl)
    (hnl : ∀ t, f ≠ Field.fixed t) :
    '/' ∉ (renderField fd f k).1 ∧
    (∀ c, is_valid_char c false = false →
      make_valid_char c false = if c = '/' then divisionSlash else '_') ∧
    (∀ l, (make_valid l false).length = l.length) ∧
    (∀ t, make_valid t true = t) := by
  refine ⟨?_, ?_, ?_, make_valid_true_id⟩
  · cases f with
    | fixed t => exact absurd rfl (hnl t)
    | progressive pad =>
      simpa [renderField] using sep_not_mem_padZero pad k
    | framesData dk =>
      simpa [renderField] using not_sep_mem_make_valid_false (rawRender fd dk)
    | tag t =>
      simp only [renderField, tagRender]
      split
      · split
        · exact not_sep_mem_make_valid_false _
        · simp
      · simp
  · intro c h
    simp [make_valid_char, h]
  · intro l
    simp [make_valid]

/-- Witness for C1 at the pattern "%e" and a path containing '/'. -/
theorem evaluate_no_raw_separator_witness :
    '/' ∉ (renderField (mkFD (cs "a/b.c")) (Field.framesData DataKind.ext)
      0).1 :=
  (evaluate_no_raw_separator (cs "%e") [Field.framesData DataKind.ext]
    (mkFD (cs "a/b.c")) 0 (Field.framesData DataKind.ext)
    (by simp [parse_pattern, parse_loop, flushLit, dirOfChar, cs])
    (by simp)
    (by intro t h; exact Field.noConfusion h)).1

/-- Claim C2: compilation fails for an unrecognized directive, for a
trailing '%', for an unterminated "%T[", and for an absolute first
literal segment, while "%%" compiles and renders as "%". -/
theorem compile_error_cases :
    (∀ c : Char, validDirective c = false → parse_pattern ['%', c] = none) ∧
    parse_pattern (cs "%") = none ∧
    parse_pattern (cs "%T[Exif.Foo") = none ∧
    parse_pattern (cs "/abs/%f") = none ∧
    parse_pattern (cs "%%") = some [Field.framesData DataKind.percent] ∧
    (∀ (fd : FramesMetaData) (k : Int),
      renderFields fd [Field.framesData DataKind.percent] k = (cs "%", k)) := by
  refine ⟨?_, ?_, ?_, ?_, ?_, ?_⟩
  · intro c h
    simp only [validDirective, Bool.or_eq_false_iff] at h
    obtain ⟨⟨h1, h2⟩, h3⟩ := h
    have hd : dirOfChar c = none := by
      cases hx : dirOfChar c
      · rfl
      · rw [hx] at h1; simp at h1
    have hn : c ≠ 'n' := by simpa using h2
    have hT : c ≠ 'T' := by simpa using h3
    simp [parse_pattern, parse_loop, flushLit, hn, hT, hd]
  · simp [parse_pattern, parse_loop, cs]
  · simp [parse_pattern, parse_loop, flushLit, cs]
  · simp [parse_pattern, parse_loop, flushLit, dirOfChar, is_valid_char,
      G_IS_DIR_SEPARATOR, make_valid, make_valid_char, path_is_absolute, cs]
  · simp [parse_pattern, parse_loop, flushLit, dirOfChar, cs]
  · intro fd k
    simp [renderFields, renderField, rawRender, make_valid, make_valid_char,
      is_valid_char, G_IS_DIR_SEPARATOR, cs]

/-- Witness for C2's universal part at the unknown directive 'z'. -/
theorem compile_error_cases_witness : parse_pattern ['%', 'z'] = none :=
  compile_error_cases.1 'z' (by decide)

/-- Claim C6: a pattern compiled from "%n2" rendered twice from starting
value 1 yields "01" then "02"; the counter advances by exactly the
number of progressive fields on each evaluation, and width 0 means no
padding. -/
theorem sequence_counter_behavior :
    parse_pattern (cs "%n2") = some [Field.progressive 2] ∧
    (∀ fd : FramesMetaData,
      (renderFields fd [Field.progressive 2] 1).1 = cs "01" ∧
      (renderFields fd [Field.progressive 2] 1).2 = 2 ∧
      (renderFields fd [Field.progressive 2] 2).1 = cs "02" ∧
      (renderFields fd [Field.progressive 2] 2).2 = 3) ∧
    (∀ (fd : FramesMetaData) (fl : List Field) (k : Int),
      (renderFields fd fl k).2 = k + countProg fl) ∧
    (∀ s : List Char, padZero 0 s = s) := by
  refine ⟨?_, ?_, ?_, ?_⟩
  · simp [parse_pattern, parse_loop, flushLit, cs]
  · intro fd
    exact ⟨rfl, rfl, rfl, rfl⟩
  · intro fd fl
    induction fl with
    | nil => intro k; simp [renderFields, countProg]
    | cons f rest ih =>
      intro k
      cases f
      all_goals simp [renderFields, renderField, countProg, ih]
      all_goals omega
  · intro s
    simp [padZero]

theorem flo_lt (p : Char → Bool) :
    ∀ (l : List Char) (j : Nat), find_last_of p l = some j → j < l.length := by
  intro l
  induction l with
  | nil => intro j h; simp [find_last_of] at h
  | cons c rest ih =>
    intro j h
    simp only [find_last_of] at h
    cases hr : find_last_of p rest with
    | some j' =>
      rw [hr] at h
      have := ih j' hr
      simp at h
      simp only [List.length_cons]
      omega
    | none =>
      rw [hr] at h
      by_cases hp1 : p c
      · simp [hp1] at h
        simp only [List.length_cons]
        omega
      · simp [hp1] at h

theorem flo_sat (p : Char → Bool) :
    ∀ (l : List Char) (j : Nat), find_last_of p l = some j →
      ∀ hj : j < l.length, p (l.get ⟨j, hj⟩) = true := by
  intro l
  induction l with
  | nil => intro j h; simp [find_last_of] at h
  | cons c rest ih =>
    intro j h hj
    simp only [find_last_of] at h
    cases hr : find_last_of p rest with
    | some j' =>
      rw [hr] at h
      simp at h
      subst h
      exact ih j' hr (by have := flo_lt p rest j' hr; omega)
    | none =>
      rw [hr] at h
      by_cases hp1 : p c
      · simp [hp1] at h
        subst h
        simpa using hp1
      · simp [hp1] at h

theorem flo_none (p : Char → Bool) :
    ∀ (l : List Char), find_last_of p l = none →
      ∀ (k : Nat) (hk : k < l.length), p (l.get ⟨k, hk⟩) = false := by
  intro l
  induction l with
  | nil => intro _ k hk; simp at hk
  | cons c rest ih =>
    intro h k hk
    simp only [find_last_of] at h
    cases hr : find_last_of p rest with
    | some j' => rw [hr] at h; simp at h
    | none =>
      rw [hr] at h
      by_cases hp1 : p c
      · simp [hp1] at h
      · match k with
        | 0 => simpa using (Bool.eq_false_iff.mpr hp1)
        | k' + 1 =>
          have hk' : k' < rest.length := by simpa using hk
          have := ih hr k' hk'
          simpa using this

theorem flo_after (p : Char → Bool) :
    ∀ (l : List Char) (j : Nat), find_last_of p l = some j →
      ∀ (k : Nat) (hk : k < l.length), j < k → p (l.get ⟨k, hk⟩) = false := by
  intro l
  induction l with
  | nil => intro j h; simp [find_last_of] at h
  | cons c rest ih =>
    intro j h k hk hjk
    simp only [find_last_of] at h
    cases hr : find_last_of p rest with
    | some j' =>
      rw [hr] at h
      simp at h
      subst h
      match k with
      | k' + 1 =>
        have hk' : k' < rest.length := by simpa using hk
        have := ih j' hr k' hk' (by omega)
        simpa using this
    | none =>
      rw [hr] at h
      by_cases hp1 : p c
      · simp [hp1] at h
        subst h
        match k with
        | k' + 1 =>
          have hk' : k' < rest.length := by simpa using hk
          have := flo_none p rest hr k' hk'
          simpa using this
      · simp [hp1] at h

theorem basename_of_no_trailing_sep (f : List Char) (hne : f ≠ [])
    (hf : f.getLast? ≠ some '/') :
    path_get_basename f = (f.reverse.takeWhile (fun c => c ≠ '/')).reverse ∧
    path_get_basename f <:+ f ∧ path_get_basename f ≠ [] := by
  obtain ⟨a, s, hrev⟩ : ∃ a s, f.reverse = a :: s := by
    cases hr : f.reverse with
    | nil => exact absurd (by simpa using congrArg List.reverse hr) hne
    | cons a s => exact ⟨a, s, rfl⟩
  have ha : a ≠ '/' := by
    intro hcon
    apply hf
    rw [← List.head?_reverse, hrev, hcon]
    rfl
  have hdw : f.reverse.dropWhile (fun c => c = '/') = f.reverse := by
    rw [hrev]
    exact List.dropWhile_cons_of_neg (by simpa using ha)
  have hb : path_get_basename f =
      (f.reverse.takeWhile (fun c => c ≠ '/')).reverse := by
    simp [path_get_basename, hne, hdw]
  have hpre : f.reverse.takeWhile (fun c => c ≠ '/') <+: f.reverse :=
    List.takeWhile_prefix _
  have hsuf : path_get_basename f <:+ f := by
    rw [hb]
    have h4 : (f.reverse.takeWhile (fun c => c ≠ '/')).reverse
        <:+ f.reverse.reverse := List.reverse_suffix.mpr hpre
    simpa using h4
  have hbne : path_get_basename f ≠ [] := by
    rw [hb, hrev, List.takeWhile_cons_of_pos (by simpa using ha)]
    simp
  exact ⟨hb, hsuf, hbne⟩

theorem mem_drop_getElem {α : Type} {l : List α} {n : Nat} {x : α}
    (hx : x ∈ l.drop n) :
    ∃ k, ∃ hk : k < l.length, n ≤ k ∧ l.get ⟨k, hk⟩ = x := by
  obtain ⟨i, hi, hix⟩ := List.mem_iff_getElem.mp hx
  have hlen : i < l.length - n := by simpa using hi
  have hk : n + i < l.length := by omega
  refine ⟨n + i, hk, by omega, ?_⟩
  have h2 : (l.drop n).get ⟨i, hi⟩ = l.get ⟨n + i, hk⟩ := by
    simp only [List.get_eq_getElem]
    exact List.getElem_drop l
  rw [← h2]
  simpa only [List.get_eq_getElem] using hix

theorem spec_all_of_after {b : List Char} {d : Nat}
    (hafter : ∀ (k : Nat) (hk : k < b.length), d < k →
      isspace (b.get ⟨k, hk⟩) = false) :
    (b.drop (d + 1)).all (fun c => !isspace c) = true := by
  rw [List.all_eq_true]
  intro x hx
  obtain ⟨k, hk, hge, hval⟩ := mem_drop_getElem hx
  rw [← hval]
  have h5 := hafter k hk (by omega)
  simp only [List.get_eq_getElem] at h5 ⊢
  simp [h5]

theorem normChar_dot (aw : Bool) (nm : Normalization) :
    normChar aw nm '.' = '.' := by
  cases nm <;> cases aw <;> decide

/-- Claim C5 (amended): for a candidate name that does not end in a
path separator, the split-off extension is exactly the text after the
last dot of the final path segment when no whitespace follows that dot
(and empty otherwise); when nonempty, stem and dot and extension
reassemble the name, the extension contains no dot and no whitespace;
and evaluation normalizes the stem under the name policy and the
extension under the extension policy independently (the separating dot
surviving unchanged), rejoins them, and only then prepends the base
directory. -/
theorem extension_split_characterization (f : List Char)
    (hf : f.getLast? ≠ some '/') :
    getExtension f = specExtension f ∧
    (getExtension f ≠ [] → removeExtension f ++ '.' :: getExtension f = f) ∧
    '.' ∉ getExtension f ∧
    (∀ c ∈ getExtension f, isspace c = false) ∧
    (∀ (p : Params) (fd : FramesMetaData),
      (renderFields fd p.pattern p.progressive_number).1 = f →
      ∃ pre,
        pre = (if getExtension f = [] then f else removeExtension f).map
                (normChar p.allow_whitespace p.name_norm)
              ++ (if getExtension f = [] then []
                  else '.' :: (getExtension f).map
                    (normChar p.allow_whitespace p.ext_norm)) ∧
        (get_new_name p fd).1 =
          (if p.basedir ≠ [] ∧ p.basedir ≠ ['.']
           then build_filename p.basedir pre else pre)) := by
  have hnorm : ∀ (p : Params) (fd : FramesMetaData),
      (renderFields fd p.pattern p.progressive_number).1 = f →
      ∃ pre,
        pre = (if getExtension f = [] then f else removeExtension f).map
                (normChar p.allow_whitespace p.name_norm)
              ++ (if getExtension f = [] then []
                  else '.' :: (getExtension f).map
                    (normChar p.allow_whitespace p.ext_norm)) ∧
        (get_new_name p fd).1 =
          (if p.basedir ≠ [] ∧ p.basedir ≠ ['.']
           then build_filename p.basedir pre else pre) := by
    intro p fd hren
    refine ⟨_, rfl, ?_⟩
    simp only [get_new_name]
    rw [hren]
    by_cases he : getExtension f = []
    · simp [he]
    · simp [he, normChar_dot]
  have hmain : getExtension f = specExtension f ∧
      (getExtension f ≠ [] → removeExtension f ++ '.' :: getExtension f = f) ∧
      '.' ∉ getExtension f ∧
      (∀ c ∈ getExtension f, isspace c = false) := ?_
  · exact ⟨hmain.1, hmain.2.1, hmain.2.2.1, hmain.2.2.2, hnorm⟩
  by_cases hne : f = []
  · subst hne
    exact ⟨rfl, by decide, by decide, by decide⟩
  · obtain ⟨_, hsuf, _⟩ := basename_of_no_trailing_sep f hne hf
    have hlen : (path_get_basename f).length ≤ f.length := hsuf.length_le
    have hdropf :
        f.drop (f.length - (path_get_basename f).length) = path_get_basename f :=
      (List.suffix_iff_eq_drop.mp hsuf).symm
    cases hd : find_last_of (fun c => c = '.') (path_get_basename f) with
    | none =>
      have hget : getExtension f = [] := by simp [getExtension, hd]
      refine ⟨?_, ?_, ?_, ?_⟩
      · simp [hget, specExtension, hd]
      · intro h; exact absurd hget h
      · simp [hget]
      · simp [hget]
    | some d =>
      have hdlt : d < (path_get_basename f).length := flo_lt _ _ d hd
      have hdot : (path_get_basename f).get ⟨d, hdlt⟩ = '.' := by
        simpa using flo_sat _ _ d hd hdlt
      have hplen : f.length - ((path_get_basename f).length - d) + 1
          = (f.length - (path_get_basename f).length) + (d + 1) := by omega
      have hdropped :
          f.drop ((f.length - (path_get_basename f).length) + (d + 1))
          = (path_get_basename f).drop (d + 1) := by
        rw [← List.drop_drop, hdropf]
      have hrejoin :
          f.take ((f.length - (path_get_basename f).length) + d) ++
            '.' :: (path_get_basename f).drop (d + 1) = f := by
        have hsplit : f.drop ((f.length - (path_get_basename f).length) + d)
            = (path_get_basename f).drop d := by
          rw [← List.drop_drop, hdropf]
        have hcons : (path_get_basename f).drop d
            = '.' :: (path_get_basename f).drop (d + 1) := by
          have hdot2 := hdot
          simp only [List.get_eq_getElem] at hdot2
          rw [List.drop_eq_getElem_cons hdlt, hdot2]
        calc f.take ((f.length - (path_get_basename f).length) + d) ++
              '.' :: (path_get_basename f).drop (d + 1)
            = f.take ((f.length - (path_get_basename f).length) + d) ++
              f.drop ((f.length - (path_get_basename f).length) + d) := by
              rw [hsplit, hcons]
          _ = f := List.take_append_drop _ f
      have hnodot : '.' ∉ (path_get_basename f).drop (d + 1) := by
        intro hmem
        obtain ⟨k, hk, hge, hval⟩ := mem_drop_getElem hmem
        have := flo_after (fun c => c = '.') _ d hd k hk (by omega)
        rw [hval] at this
        simp at this
      cases hw : find_last_of isspace (path_get_basename f) with
      | none =>
        have hallb : ((path_get_basename f).drop (d + 1)).all
            (fun c => !isspace c) = true :=
          spec_all_of_after (fun k hk _ => flo_none isspace _ hw k hk)
        have hget : getExtension f
            = (path_get_basename f).drop (d + 1) := by
          simp only [getExtension, hd, hw]
          rw [hplen, hdropped]
        have hrem : removeExtension f
            = f.take ((f.length - (path_get_basename f).length) + d) := by
          simp only [removeExtension, hd, hw]
          congr 1
          omega
        refine ⟨?_, ?_, ?_, ?_⟩
        · rw [hget]
          simp [specExtension, hd, hallb]
        · intro _
          rw [hget, hrem]
          exact hrejoin
        · rw [hget]; exact hnodot
        · rw [hget]
          intro c hc
          have := List.all_eq_true.mp hallb c hc
          simpa using this
      | some w =>
        have hwlt : w < (path_get_basename f).length := flo_lt _ _ w hw
        have hws : isspace ((path_get_basename f).get ⟨w, hwlt⟩) = true := by
          simpa using flo_sat _ _ w hw hwlt
        have hdnew : d ≠ w := by
          intro hcon
          subst hcon
          rw [hdot] at hws
          exact absurd hws (by decide)
        by_cases hgt : d > w
        · have hallb : ((path_get_basename f).drop (d + 1)).all
              (fun c => !isspace c) = true :=
            spec_all_of_after
              (fun k hk hdk => flo_after isspace _ w hw k hk (by omega))
          have hget : getExtension f
              = (path_get_basename f).drop (d + 1) := by
            simp only [getExtension, hd, hw, if_pos hgt]
            rw [hplen, hdropped]
          have hrem : removeExtension f
              = f.take ((f.length - (path_get_basename f).length) + d) := by
            simp only [removeExtension, hd, hw, if_pos hgt]
            congr 1
            omega
          refine ⟨?_, ?_, ?_, ?_⟩
          · rw [hget]
            simp [specExtension, hd, hallb]
          · intro _
            rw [hget, hrem]
            exact hrejoin
          · rw [hget]; exact hnodot
          · rw [hget]
            intro c hc
            have := List.all_eq_true.mp hallb c hc
            simpa using this
        · have hwgt : d < w := by omega
          have hget : getExtension f = [] := by
            simp only [getExtension, hd, hw, if_neg hgt]
          have hnall : ¬ (((path_get_basename f).drop (d + 1)).all
              (fun c => !isspace c) = true) := by
            intro hall
            have hmem : (path_get_basename f).get ⟨w, hwlt⟩
                ∈ (path_get_basename f).drop (d + 1) := by
              have h2 : ((path_get_basename f).drop (d + 1)).get
                  ⟨w - (d + 1), by simp; omega⟩
                  = (path_get_basename f).get ⟨w, hwlt⟩ := by
                simp only [List.get_eq_getElem]
                have h3 : (d + 1) + (w - (d + 1)) = w := by omega
                rw [List.getElem_drop]
                simp [h3]
              rw [← h2]
              exact List.get_mem _ _ _
            have := List.all_eq_true.mp hall _ hmem
            rw [hws] at this
            simp at this
          refine ⟨?_, ?_, ?_, ?_⟩
          · rw [hget]
            simp only [specExtension, hd]
            rw [if_neg hnall]
          · intro h; exact absurd hget h
          · simp [hget]
          · simp [hget]

/-- Counterexample to C5 as stated: the compiled pattern "a.b/" renders
to the candidate name "a.b/", whose final path segment (the basename
after stripping the trailing separator) is "a.b" with text "b" after
its last dot; but removeExtension/getExtension index the original
string with offsets computed as if that basename were its suffix, which
a slash-terminated name violates, so the code splits off "/" as the
extension and "a." as the stem. -/
theorem extension_split_counterexample :
    parse_pattern (cs "a.b/") = some [Field.fixed (cs "a.b/")] ∧
    (∀ (fd : FramesMetaData) (k : Int),
      renderFields fd [Field.fixed (cs "a.b/")] k = (cs "a.b/", k)) ∧
    path_get_basename (cs "a.b/") = cs "a.b" ∧
    removeExtension (cs "a.b/") = cs "a." ∧
    getExtension (cs "a.b/") = cs "/" ∧
    specExtension (cs "a.b/") = cs "b" ∧
    getExtension (cs "a.b/") ≠ specExtension (cs "a.b/") := by
  refine ⟨?_, ?_, by decide, by decide, by decide, by decide, by decide⟩
  · simp [parse_pattern, parse_loop, flushLit, is_valid_char,
      G_IS_DIR_SEPARATOR, make_valid, make_valid_char, path_is_absolute, cs]
  · intro fd k
    simp [renderFields, renderField]

theorem charAtNul_lt (s : List Char) (j : Nat) (hj : j < s.length) :
    charAtNul s j = s.get ⟨j, hj⟩ := by
  simp [charAtNul, List.getD_eq_getElem?_getD, List.getElem?_eq_getElem hj]

theorem charAtNul_ge (s : List Char) (j : Nat) (hj : s.length ≤ j) :
    charAtNul s j = Char.ofNat 0 := by
  simp [charAtNul, List.getD_eq_getElem?_getD,
    List.getElem?_eq_none (by omega : s.length ≤ j)]

theorem tsi_ge (s : List Char) (i : Nat) : i ≤ trimStartIdx s i := by
  induction i using trimStartIdx.induct with
  | s => exact s
  | case1 i h ih => rw [trimStartIdx, dif_pos h]; omega
  | case2 i h => rw [trimStartIdx, dif_neg h]

theorem tsi_stop (s : List Char) (i : Nat) :
    isspace (charAtNul s (trimStartIdx s i)) = false := by
  induction i using trimStartIdx.induct with
  | s => exact s
  | case1 i h ih => rwa [trimStartIdx, dif_pos h]
  | case2 i h => rw [trimStartIdx, dif_neg h]; simpa using h

theorem tsi_le_length (s : List Char) (i : Nat) (hi : i ≤ s.length) :
    trimStartIdx s i ≤ s.length := by
  induction i using trimStartIdx.induct with
  | s => exact s
  | case1 i h ih =>
    rw [trimStartIdx, dif_pos h]
    have hlt : i < s.length := by
      by_contra hge
      rw [charAtNul_ge s i (by omega)] at h
      exact absurd h (by decide)
    exact ih (by omega)
  | case2 i h => rwa [trimStartIdx, dif_neg h]

theorem tei_le (s : List Char) (n : Nat) : trimEndIdx s n ≤ n := by
  induction n using trimEndIdx.induct with
  | s => exact s
  | case1 n h ih => rw [trimEndIdx, if_pos h]; omega
  | case2 n h => rw [trimEndIdx, if_neg h]

theorem tei_stop (s : List Char) (n : Nat) :
    trimEndIdx s n = 0 ∨
    isspace (charAtNul s (trimEndIdx s n - 1)) = false := by
  induction n using trimEndIdx.induct with
  | s => exact s
  | case1 n h ih => rwa [trimEndIdx, if_pos h]
  | case2 n h =>
    rw [trimEndIdx, if_neg h]
    rcases Nat.eq_zero_or_pos n with h0 | h0
    · exact Or.inl h0
    · right
      by_contra hsp
      exact h ⟨h0, by simpa using hsp⟩

theorem tei_skipped (s : List Char) (n : Nat) :
    ∀ j, trimEndIdx s n ≤ j → j < n → isspace (charAtNul s j) = true := by
  induction n using trimEndIdx.induct with
  | s => exact s
  | case1 n h ih =>
    intro j hge hlt
    rw [trimEndIdx, if_pos h] at hge
    by_cases hj : j < n - 1
    · exact ih j hge hj
    · have hj2 : j = n - 1 := by omega
      subst hj2
      exact h.2
  | case2 n h =>
    intro j hge hlt
    rw [trimEndIdx, if_neg h] at hge
    omega

theorem tsi_lt_tei (s : List Char) (h : trimStartIdx s 0 < s.length) :
    trimStartIdx s 0 < trimEndIdx s s.length := by
  by_contra hle
  have hsk := tei_skipped s s.length (trimStartIdx s 0) (by omega) h
  rw [tsi_stop s 0] at hsk
  exact absurd hsk (by decide)

theorem trim_ne_empty_facts (l : List Char) (h : trim l true true ≠ []) :
    trimStartIdx l 0 < trimEndIdx l l.length ∧
    trimStartIdx l 0 < l.length ∧
    trim l true true = (l.drop (trimStartIdx l 0)).take
      (trimEndIdx l l.length - trimStartIdx l 0) := by
  by_cases hc : trimStartIdx l 0 ≤ trimEndIdx l l.length
  · have heq : trim l true true = (l.drop (trimStartIdx l 0)).take
        (trimEndIdx l l.length - trimStartIdx l 0) := by
      simp [trim, hc]
    rw [heq] at h
    have hlen : 0 < min (trimEndIdx l l.length - trimStartIdx l 0)
        (l.length - trimStartIdx l 0) := by
      rcases Nat.eq_zero_or_pos (min (trimEndIdx l l.length - trimStartIdx l 0)
          (l.length - trimStartIdx l 0)) with h0 | h0
      · exact absurd (List.eq_nil_of_length_eq_zero (by simpa using h0)) h
      · exact h0
    refine ⟨by omega, by omega, heq⟩
  · have heq : trim l true true = l.drop (trimStartIdx l 0) := by
      simp [trim, hc]
    rw [heq] at h
    have hlt : trimStartIdx l 0 < l.length := by
      by_contra hge
      exact h (List.drop_eq_nil_of_le (by omega))
    exact absurd (tsi_lt_tei l hlt) (by omega)

theorem trim_head_nonspace (l : List Char) (h : trim l true true ≠ []) :
    ∀ c, (trim l true true).head? = some c → isspace c = false := by
  obtain ⟨hlt, hlen, heq⟩ := trim_ne_empty_facts l h
  intro c hc
  rw [heq, List.head?_eq_getElem?,
    List.getElem?_take_of_lt (by omega : 0 < trimEndIdx l l.length -
      trimStartIdx l 0), List.getElem?_drop, Nat.add_zero,
    List.getElem?_eq_getElem hlen] at hc
  obtain rfl : c = l.get ⟨trimStartIdx l 0, hlen⟩ := by
    have h2 := Option.some.inj hc
    simp only [List.get_eq_getElem]
    exact h2.symm
  have h3 := tsi_stop l 0
  rwa [charAtNul_lt l _ hlen] at h3

theorem trim_last_nonspace (l : List Char) (h : trim l true true ≠ []) :
    ∀ c, (trim l true true).getLast? = some c → isspace c = false := by
  obtain ⟨hlt, hlen, heq⟩ := trim_ne_empty_facts l h
  have hn0le : trimEndIdx l l.length ≤ l.length := tei_le l l.length
  intro c hc
  have hrlen : ((l.drop (trimStartIdx l 0)).take
      (trimEndIdx l l.length - trimStartIdx l 0)).length
      = trimEndIdx l l.length - trimStartIdx l 0 := by
    simp
    omega
  have hn1 : trimEndIdx l l.length - 1 < l.length := by omega
  rw [heq, List.getLast?_eq_getElem?, hrlen,
    List.getElem?_take_of_lt (by omega : trimEndIdx l l.length -
      trimStartIdx l 0 - 1 < trimEndIdx l l.length - trimStartIdx l 0),
    List.getElem?_drop,
    (by omega : trimStartIdx l 0 + (trimEndIdx l l.length -
      trimStartIdx l 0 - 1) = trimEndIdx l l.length - 1),
    List.getElem?_eq_getElem hn1] at hc
  obtain rfl : c = l.get ⟨trimEndIdx l l.length - 1, hn1⟩ := by
    have h2 := Option.some.inj hc
    simp only [List.get_eq_getElem]
    exact h2.symm
  rcases tei_stop l l.length with h0 | hns
  · omega
  · rwa [charAtNul_lt l _ hn1] at hns

theorem trim_tail_mem (l : List Char) {x : Char}
    (hx : x ∈ (trim l true true).drop 1) : x ∈ l.drop 1 := by
  by_cases h : trim l true true = []
  · rw [h] at hx; simp at hx
  · obtain ⟨hlt, hlen, heq⟩ := trim_ne_empty_facts l h
    rw [heq, List.drop_take, List.drop_drop] at hx
    have hx2 := List.mem_of_mem_take hx
    have hsplit : l.drop (trimStartIdx l 0 + 1)
        = (l.drop 1).drop (trimStartIdx l 0) := by
      rw [List.drop_drop]
      congr 1
      omega
    rw [hsplit] at hx2
    exact List.mem_of_mem_drop hx2

theorem trim_entry_good (l : List Char) (hsemi : ';' ∉ l.drop 1)
    (hne : trim l true true ≠ []) : goodSidecarEntry (trim l true true) :=
  ⟨hne, trim_head_nonspace l hne, trim_last_nonspace l hne,
   fun hmem => hsemi (trim_tail_mem l hmem)⟩

theorem mem_take_drop_getElem {α : Type} {l : List α} {a m : Nat} {x : α}
    (hx : x ∈ (l.drop a).take m) :
    ∃ k, ∃ hk : k < l.length, a ≤ k ∧ k < a + m ∧ l.get ⟨k, hk⟩ = x := by
  obtain ⟨j', hj', hval⟩ := List.mem_iff_getElem.mp hx
  have hlen : j' < min m (l.length - a) := by simpa using hj'
  have hk : a + j' < l.length := by omega
  refine ⟨a + j', hk, by omega, by omega, ?_⟩
  rw [List.getElem_take, List.getElem_drop] at hval
  simp only [List.get_eq_getElem]
  exact hval

theorem window_no_semi (s : List Char) (a b : Nat)
    (hinv : ∀ (j : Nat) (hj : j < s.length), a < j → j < b →
      s.get ⟨j, hj⟩ ≠ ';') :
    ';' ∉ (s.drop (a + 1)).take (b - (a + 1)) := by
  intro hmem
  obtain ⟨k, hk, hge, hub, hval⟩ := mem_take_drop_getElem hmem
  exact hinv k hk (by omega) (by omega) hval

theorem window_no_semi_drop (s : List Char) (a : Nat)
    (hinv : ∀ (j : Nat) (hj : j < s.length), a < j → s.get ⟨j, hj⟩ ≠ ';') :
    ';' ∉ s.drop (a + 1) := by
  intro hmem
  obtain ⟨k, hk, hge, hval⟩ := mem_drop_getElem hmem
  exact hinv k hk (by omega) hval

theorem psl_final_good (s : List Char) (i prev : Nat)
    (acc : List (List Char)) (hge : ¬ i < s.length)
    (hinv : ∀ (j : Nat) (hj : j < s.length), prev < j →
      s.get ⟨j, hj⟩ ≠ ';')
    (hacc : ∀ e ∈ acc, goodSidecarEntry e) :
    ∀ e ∈ parse_sidecars_loop s i prev acc, goodSidecarEntry e := by
  intro e he
  rw [parse_sidecars_loop, dif_neg hge] at he
  by_cases hpl : prev < s.length
  · rw [if_pos hpl] at he
    by_cases hemp : trim (s.drop prev) true true = []
    · rw [if_pos hemp] at he; exact hacc e he
    · rw [if_neg hemp] at he
      rcases List.mem_append.mp he with hmem | hmem
      · exact hacc e hmem
      · simp at hmem
        subst hmem
        apply trim_entry_good _ _ hemp
        rw [List.drop_drop]
        exact window_no_semi_drop s prev hinv
  · rw [if_neg hpl] at he
    exact hacc e he

theorem psl_good (s : List Char) :
    ∀ (m i prev : Nat) (acc : List (List Char)),
      s.length - i ≤ m →
      (∀ (j : Nat) (hj : j < s.length), prev < j → j < i →
        s.get ⟨j, hj⟩ ≠ ';') →
      (∀ e ∈ acc, goodSidecarEntry e) →
      ∀ e ∈ parse_sidecars_loop s i prev acc, goodSidecarEntry e := by
  intro m
  induction m with
  | zero =>
    intro i prev acc hm hinv hacc
    exact psl_final_good s i prev acc (by omega)
      (fun j hj hpj => hinv j hj hpj (by omega)) hacc
  | succ m ih =>
    intro i prev acc hm hinv hacc
    by_cases hlt : i < s.length
    · intro e he
      rw [parse_sidecars_loop, dif_pos hlt] at he
      split at he
      · rename_i hsem
        refine ih (i + 2) (i + 1) _ (by omega) ?_ ?_ e he
        · intro j hj hpj hji
          omega
        · intro e' he'
          by_cases hemp : trim ((s.drop prev).take (i - prev)) true true = []
          · rw [if_pos hemp] at he'; exact hacc e' he'
          · rw [if_neg hemp] at he'
            rcases List.mem_append.mp he' with hmem | hmem
            · exact hacc e' hmem
            · simp at hmem
              subst hmem
              apply trim_entry_good _ _ hemp
              rw [List.drop_take, List.drop_drop,
                (by omega : i - prev - 1 = i - (prev + 1))]
              exact window_no_semi s prev i
                (fun j hj hpj hji => hinv j hj hpj hji)
      · rename_i hsem
        refine ih (i + 1) prev acc (by omega) ?_ hacc e he
        intro j hj hpj hji
        by_cases hji2 : j < i
        · exact hinv j hj hpj hji2
        · have : j = i := by omega
          subst this
          intro hcon
          apply hsem
          simp only [List.get_eq_getElem] at hcon
          exact hcon
    · exact psl_final_good s i prev acc hlt
        (fun j hj hpj => hinv j hj hpj (by omega)) hacc


/-- Witness for C5's amended characterization at the name "x/y.z". -/
theorem extension_split_characterization_witness :
    getExtension (cs "x/y.z") = specExtension (cs "x/y.z") ∧
    (getExtension (cs "x/y.z") ≠ [] →
      removeExtension (cs "x/y.z") ++ '.' :: getExtension (cs "x/y.z")
        = cs "x/y.z") ∧
    '.' ∉ getExtension (cs "x/y.z") ∧
    (∀ c ∈ getExtension (cs "x/y.z"), isspace c = false) ∧
    (∀ (p : Params) (fd : FramesMetaData),
      (renderFields fd p.pattern p.progressive_number).1 = cs "x/y.z" →
      ∃ pre,
        pre = (if getExtension (cs "x/y.z") = [] then cs "x/y.z"
               else removeExtension (cs "x/y.z")).map
                (normChar p.allow_whitespace p.name_norm)
              ++ (if getExtension (cs "x/y.z") = [] then []
                  else '.' :: (getExtension (cs "x/y.z")).map
                    (normChar p.allow_whitespace p.ext_norm)) ∧
        (get_new_name p fd).1 =
          (if p.basedir ≠ [] ∧ p.basedir ≠ ['.']
           then build_filename p.basedir pre else pre)) :=
  extension_split_characterization (cs "x/y.z") (by decide)

/-- Claim C9 (amended): sidecar-list parsing splits at each examined
';' (the character immediately following a separator is never examined,
so adjacent separators leave a ';' at the head of the next entry),
trims each entry and drops empty ones; consequently every returned
entry is nonempty, starts and ends with non-whitespace, and contains
';' at most as its first character. -/
theorem sidecar_entries_shape (s : List Char) :
    ∀ e ∈ parse_sidecars s,
      e ≠ [] ∧
      (∀ c, e.head? = some c → isspace c = false) ∧
      (∀ c, e.getLast? = some c → isspace c = false) ∧
      ';' ∉ e.drop 1 :=
  psl_good s s.length 0 0 [] (by omega)
    (fun j hj hpj hji => by omega)
    (fun e' he' => absurd he' (List.not_mem_nil e'))

/-- Counterexample to C9 as stated: with adjacent separators the entry
";" is returned, which contains a ';' and is not a piece of a
split-at-every-';' decomposition. -/
theorem sidecar_split_counterexample :
    parse_sidecars (cs ";;") = [[';']] ∧
    ∃ e ∈ parse_sidecars (cs ";;"), ';' ∈ e := by
  have h : parse_sidecars (cs ";;") = [[';']] := by
    simp [parse_sidecars, parse_sidecars_loop, trim, trimStartIdx, trimEndIdx,
      charAtNul, isspace, cs]
  exact ⟨h, [';'], by rw [h]; simp, by simp⟩

/-- Witness for C9's amended shape at the list "a;b" and its first
entry. -/
theorem sidecar_entries_shape_witness :
    ['a'] ≠ [] ∧
    (∀ c, (['a'] : List Char).head? = some c → isspace c = false) ∧
    (∀ c, (['a'] : List Char).getLast? = some c → isspace c = false) ∧
    ';' ∉ (['a'] : List Char).drop 1 :=
  sidecar_entries_shape (cs "a;b") ['a']
    (by
      have h : parse_sidecars (cs "a;b") = [['a'], ['b']] := by
        simp [parse_sidecars, parse_sidecars_loop, trim, trimStartIdx,
          trimEndIdx, charAtNul, isspace, cs]
      rw [h]
      simp)

theorem tsc_progress (s : List Char) :
    ∀ (m i : Nat), s.length - i ≤ m →
      (∃ k, ∃ hk : k < s.length, i ≤ k ∧ isspace (s.get ⟨k, hk⟩) = false) →
      ∃ j, trimStartChecked s i = some j ∧ j < s.length := by
  intro m
  induction m with
  | zero =>
    intro i hm hex
    obtain ⟨k, hk, hik, _⟩ := hex
    omega
  | succ m ih =>
    intro i hm hex
    obtain ⟨k, hk, hik, hkns⟩ := hex
    have hi : i < s.length := by omega
    rw [trimStartChecked, dif_pos hi]
    by_cases hsp : isspace (s.get ⟨i, hi⟩) = true
    · have hne : k ≠ i := by
        intro hcon
        subst hcon
        rw [hkns] at hsp
        exact absurd hsp (by decide)
      have hstep : ∃ j, trimStartChecked s (i + 1) = some j ∧ j < s.length :=
        ih (i + 1) (by omega) ⟨k, hk, by omega, hkns⟩
      simp only [List.get_eq_getElem] at hsp
      rw [if_pos hsp]
      exact hstep
    · simp only [List.get_eq_getElem] at hsp
      rw [if_neg hsp]
      exact ⟨i, rfl, hi⟩

theorem tec_ne_none (s : List Char) :
    ∀ n, n ≤ s.length → trimEndChecked s n ≠ none := by
  intro n
  induction n with
  | zero =>
    intro _
    rw [trimEndChecked]
    simp
  | succ n ih =>
    intro hn
    rw [trimEndChecked, if_pos (by omega : 0 < n + 1)]
    have hn1 : n + 1 - 1 < s.length := by omega
    rw [dif_pos hn1]
    split
    · simpa using ih (by omega)
    · simp

/-- Claim C10 (amended): the checked start-scan of trim stays strictly
in range exactly when the string contains a non-whitespace character
(otherwise it reads the position equal to the length); the end-scan
never reads out of range when started at or below the length. -/
theorem trim_index_bounds (s : List Char)
    (h : ∃ c ∈ s, isspace c = false) :
    (∃ j, trimStartChecked s 0 = some j ∧ j < s.length) ∧
    (∀ n, n ≤ s.length → trimEndChecked s n ≠ none) := by
  constructor
  · obtain ⟨c, hc, hcs⟩ := h
    obtain ⟨k, hk, hval⟩ := List.mem_iff_getElem.mp hc
    refine tsc_progress s s.length 0 (by omega) ⟨k, hk, by omega, ?_⟩
    simp only [List.get_eq_getElem]
    rw [hval]
    exact hcs
  · exact tec_ne_none s

/-- Counterexample to C10 as stated: on the empty string and on an
all-whitespace string the start-scan reads the character position equal
to the string length (the out-of-range branch of the checked
embedding). -/
theorem trim_oob_counterexample :
    trimStartChecked [] 0 = none ∧ trimStartChecked [' '] 0 = none := by
  constructor
  · rw [trimStartChecked]; simp
  · simp [trimStartChecked, isspace]

/-- Witness for C10's amended bounds at the one-character string "x". -/
theorem trim_index_bounds_witness :
    (∃ j, trimStartChecked (cs "x") 0 = some j ∧ j < (cs "x").length) ∧
    (∀ n, n ≤ (cs "x").length → trimEndChecked (cs "x") n ≠ none) :=
  trim_index_bounds (cs "x") (by decide)

theorem mkInspectorBuffer_fails {σ : Type} (env : ImgEnv σ)
    (path : List Char) (w h : Int) (hfail : decodeFails env path w h) :
    (mkInspectorBuffer env path w h).imgPath = [] := by
  rcases hfail with h1 | h1 | h1 | h1 | h1
  · simp [mkInspectorBuffer, h1]
  · simp [mkInspectorBuffer, h1]
  · simp [mkInspectorBuffer, h1]
  · simp [mkInspectorBuffer, h1]
  · by_cases he : getExtension path = []
    · simp [mkInspectorBuffer, he]
    · simp [mkInspectorBuffer, he, h1]

/-- Claim C7: when the load fails for any of the causes the spec names
and the path is not already cached, doCacheImage returns no buffer and
leaves the cache exactly as it was, and a preload likewise changes
nothing. -/
theorem cache_decode_failure_no_insert {σ : Type} (env : ImgEnv σ)
    (w h : Int) (st : LRUCache (InspectorBuffer σ)) (path : List Char)
    (hmiss : (st.get path).1 = none)
    (hfail : decodeFails env path w h) :
    doCacheImage env w h st path = (none, st) ∧
    preloadImage env w h st path = st := by
  have hbuf := mkInspectorBuffer_fails env path w h hfail
  have hget : st.get path = (none, st) := by
    unfold LRUCache.get at hmiss ⊢
    cases hfind : st.entries.find? (fun q => q.1 == path) with
    | none => rfl
    | some q => rw [hfind] at hmiss; simp at hmiss
  have hmain : doCacheImage env w h st path = (none, st) := by
    unfold doCacheImage
    rw [hget]
    simp [hbuf]
  exact ⟨hmain, by unfold preloadImage; rw [hmain]⟩

/-- Witness for C7 with an environment in which nothing exists and an
empty one-slot cache. -/
theorem cache_decode_failure_no_insert_witness :
    doCacheImage envFail 1 1 (initCache (InspectorBuffer Nat) 1)
      (cs "missing.png") = (none, initCache (InspectorBuffer Nat) 1) ∧
    preloadImage envFail 1 1 (initCache (InspectorBuffer Nat) 1)
      (cs "missing.png") = initCache (InspectorBuffer Nat) 1 :=
  cache_decode_failure_no_insert envFail 1 1
    (initCache (InspectorBuffer Nat) 1) (cs "missing.png")
    (by decide) (Or.inr (Or.inl rfl))

theorem lru_set_shape {β : Type} (st : LRUCache β) (k : List Char) (v : β) :
    (st.set k v).entries.length ≤ st.cap ∧ (st.set k v).cap = st.cap := by
  unfold LRUCache.set
  simp

theorem runOp_inv {σ : Type} (env : ImgEnv σ) (w h : Int)
    (st : LRUCache (InspectorBuffer σ)) (op : CacheOp)
    (hst : st.entries.length ≤ st.cap) :
    (runOp env w h st op).entries.length ≤ st.cap ∧
    (runOp env w h st op).cap = st.cap := by
  have hdo : ∀ p : List Char,
      ((doCacheImage env w h st p).2).entries.length ≤ st.cap ∧
      ((doCacheImage env w h st p).2).cap = st.cap := by
    intro p
    cases hfind : st.entries.find? (fun q => q.1 == p) with
    | none =>
      have hget : st.get p = (none, st) := by
        unfold LRUCache.get
        rw [hfind]
      by_cases hb : (mkInspectorBuffer env p w h).imgPath = []
      · have heq : (doCacheImage env w h st p).2 = st := by
          unfold doCacheImage
          rw [hget]
          simp [hb]
        rw [heq]
        exact ⟨hst, rfl⟩
      · have heq : (doCacheImage env w h st p).2
            = st.set p (mkInspectorBuffer env p w h) := by
          unfold doCacheImage
          rw [hget]
          simp [hb]
        rw [heq]
        exact lru_set_shape st p _
    | some q =>
      have hget : st.get p = (some q.2,
          ⟨q :: st.entries.eraseP (fun r => r.1 == p), st.cap⟩) := by
        unfold LRUCache.get
        rw [hfind]
      have heq : (doCacheImage env w h st p).2
          = ⟨q :: st.entries.eraseP (fun r => r.1 == p), st.cap⟩ := by
        unfold doCacheImage
        rw [hget]
      rw [heq]
      have hmem := List.mem_of_find?_eq_some hfind
      have hp2 := List.find?_some hfind
      have hlen : (List.eraseP (fun r => r.1 == p) st.entries).length
          = st.entries.length - 1 :=
        List.length_eraseP_of_mem hmem (by simpa using hp2)
      have hpos : 0 < st.entries.length :=
        List.length_pos.mpr (List.ne_nil_of_mem hmem)
      simp only [List.length_cons]
      refine ⟨by rw [hlen]; omega, by trivial⟩
  cases op with
  | getOp p => exact hdo p
  | preloadOp p => unfold runOp preloadImage; exact hdo p
  | invalidateAll =>
    unfold runOp LRUCache.clearAll
    exact ⟨by simp, rfl⟩

theorem runOps_inv {σ : Type} (env : ImgEnv σ) (w h : Int) :
    ∀ (ops : List CacheOp) (st : LRUCache (InspectorBuffer σ)),
      st.entries.length ≤ st.cap →
      (runOps env w h ops st).entries.length ≤ st.cap ∧
      (runOps env w h ops st).cap = st.cap := by
  intro ops
  induction ops with
  | nil => intro st hst; exact ⟨hst, rfl⟩
  | cons op rest ih =>
    intro st hst
    have h1 := runOp_inv env w h st op hst
    have h2 := ih (runOp env w h st op) (by omega)
    unfold runOps at h2 ⊢
    simp only [List.foldl_cons]
    constructor
    · omega
    · rw [h2.2, h1.2]

/-- Claim C8: the inspector cache capacity is the configured integer
clamped below to 1; after any sequence of Get, Preload and
Invalidate-all operations the number of entries never exceeds the
capacity; and with capacity 2, getting a.png, b.png, c.png as misses
evicts a.png (the least recently used) on c.png's insertion. -/
theorem cache_capacity_invariant :
    (∀ c : Int, 1 ≤ inspectorCapacity c ∧
      (1 ≤ c → (inspectorCapacity c : Int) = c) ∧
      (c ≤ 1 → inspectorCapacity c = 1)) ∧
    (∀ (σ : Type) (env : ImgEnv σ) (w h : Int) (ops : List CacheOp) (N : Nat),
      (runOps env w h ops
        (initCache (InspectorBuffer σ) N)).entries.length ≤ N) ∧
    ((runOps envABC 1 1 [CacheOp.getOp (cs "a.png"), CacheOp.getOp (cs "b.png"),
        CacheOp.getOp (cs "c.png")]
        (initCache (InspectorBuffer Nat) 2)).entries.map (fun q => q.1)
      = [cs "c.png", cs "b.png"] ∧
     (runOps envABC 1 1 [CacheOp.getOp (cs "a.png"), CacheOp.getOp (cs "b.png"),
        CacheOp.getOp (cs "c.png")]
        (initCache (InspectorBuffer Nat) 2)).lookup (cs "a.png") = none) := by
  refine ⟨?_, ?_, by decide⟩
  · intro c
    unfold inspectorCapacity
    refine ⟨by omega, ?_, by omega⟩
    intro h1
    omega
  · intro σ env w h ops N
    exact (runOps_inv env w h ops (initCache (InspectorBuffer σ) N)
      (by simp [initCache])).1

/-- Witness for C8's clamping at the configured values -3 and 7. -/
theorem cache_capacity_invariant_witness :
    1 ≤ inspectorCapacity (-3) ∧ inspectorCapacity (-3) = 1 ∧
    (inspectorCapacity 7 : Int) = 7 :=
  ⟨(cache_capacity_invariant.1 (-3)).1,
   (cache_capacity_invariant.1 (-3)).2.2 (by decide),
   (cache_capacity_invariant.1 7).2.1 (by decide)⟩

theorem cand_name_inj (bn extD : List Char) {i j : Nat}
    (h : cand_name bn extD i = cand_name bn extD j) : i = j := by
  unfold cand_name at h
  have h1 := List.append_cancel_right h
  have h2 := List.append_cancel_left h1
  simp only [List.cons.injEq, true_and] at h2
  exact natDigits_injective h2

theorem rename_candidate_ne_nil (p : Params) (fd : FramesMetaData)
    (i : Nat) : rename_candidate p fd i ≠ [] := by
  unfold rename_candidate cand_name
  simp

theorem dropWhile_cand_inj (u v : List Char) {i j : Nat}
    (h : List.dropWhile (fun c => c = '/') ((u ++ '_' :: natDigits i) ++ v)
       = List.dropWhile (fun c => c = '/') ((u ++ '_' :: natDigits j) ++ v)) :
    i = j := by
  rcases he : List.dropWhile (fun c => c = '/') u with _ | ⟨a, as⟩
  · simp [List.dropWhile_append, he] at h
    exact natDigits_injective h
  · simp [List.dropWhile_append, he] at h
    exact natDigits_injective h

theorem rename_candidate_path_inj (p : Params) (fd : FramesMetaData)
    {i j : Nat}
    (h : rename_candidate_path p fd i = rename_candidate_path p fd j) :
    i = j := by
  unfold rename_candidate_path build_filename at h
  by_cases hdir : path_get_dirname fd.fileName = []
  · rw [if_pos hdir, if_pos hdir] at h
    unfold rename_candidate at h
    exact cand_name_inj _ _ h
  · rw [if_neg hdir, if_neg hdir,
      if_neg (rename_candidate_ne_nil p fd i),
      if_neg (rename_candidate_ne_nil p fd j)] at h
    have h2 := List.append_cancel_left h
    simp only [List.cons.injEq, true_and] at h2
    unfold rename_candidate cand_name at h2
    exact dropWhile_cand_inj _ _ h2

theorem candidate_free_exists (p : Params) (fd : FramesMetaData) :
    ∀ (n : Nat) (fs : List (List Char)), fs.length = n → ∀ i : Nat,
      ∃ k, k ≤ n ∧ rename_candidate_path p fd (i + k) ∉ fs := by
  intro n
  induction n with
  | zero =>
    intro fs hlen i
    refine ⟨0, by omega, ?_⟩
    rw [List.eq_nil_of_length_eq_zero hlen]
    simp
  | succ n ih =>
    intro fs hlen i
    by_cases hmem : rename_candidate_path p fd i ∈ fs
    · obtain ⟨k, hk, hfree⟩ := ih (fs.erase (rename_candidate_path p fd i))
        (by rw [List.length_erase_of_mem hmem]; omega) (i + 1)
      refine ⟨k + 1, by omega, ?_⟩
      intro hcon
      apply hfree
      rw [(by omega : i + (k + 1) = i + 1 + k)] at hcon
      exact (List.mem_erase_of_ne
        (fun heq => by
          have := rename_candidate_path_inj p fd heq
          omega)).mpr hcon
    · exact ⟨0, by omega, by simpa using hmem⟩

theorem probe_loop_least (env : Env) (p : Params) (fd : FramesMetaData) :
    ∀ (fuel i : Nat),
      (∃ k, k < fuel ∧ rename_candidate_path p fd (i + k) ∉ env.fs) →
      ∃ k, k < fuel ∧
        probe_loop env p fd i fuel =
          (rename_candidate p fd (i + k), rename_candidate_path p fd (i + k)) ∧
        rename_candidate_path p fd (i + k) ∉ env.fs ∧
        (∀ m, m < k → rename_candidate_path p fd (i + m) ∈ env.fs) := by
  intro fuel
  induction fuel with
  | zero =>
    intro i hex
    obtain ⟨k, hk, _⟩ := hex
    omega
  | succ fuel ih =>
    intro i hex
    by_cases hmem : rename_candidate_path p fd i ∈ env.fs
    · obtain ⟨k, hk, hfree⟩ := hex
      have hk0 : k ≠ 0 := by
        intro h0
        subst h0
        rw [Nat.add_zero] at hfree
        exact hfree hmem
      obtain ⟨k', hk', heq, hfree', hmin⟩ := ih (i + 1)
        ⟨k - 1, by omega, by
          rw [(by omega : i + 1 + (k - 1) = i + k)]
          exact hfree⟩
      refine ⟨k' + 1, by omega, ?_, ?_, ?_⟩
      · simp only [probe_loop, if_pos hmem]
        rw [heq, (by omega : i + 1 + k' = i + (k' + 1))]
      · rw [(by omega : i + (k' + 1) = i + 1 + k')]
        exact hfree'
      · intro m hm
        cases m with
        | zero => rw [Nat.add_zero]; exact hmem
        | succ m' =>
          have := hmin m' (by omega)
          rwa [(by omega : i + 1 + m' = i + (m' + 1))] at this
    · refine ⟨0, by omega, ?_, by simpa using hmem, by omega⟩
      simp only [probe_loop, if_neg hmem, Nat.add_zero]

theorem sidecar_loop_eq_spec (env : Env) (fn np : List Char) :
    ∀ (sc : List (List Char)) (out : List (List Char × List Char)),
      sidecar_loop env fn (removeExtension fn) np (removeExtension np) sc out
      = out ++ sidecar_pairs_spec env.fs fn np sc (out.map Prod.fst) := by
  intro sc
  induction sc with
  | nil => intro out; simp [sidecar_loop, sidecar_pairs_spec]
  | cons s rest ih =>
    intro out
    rw [sidecar_loop, sidecar_pairs_spec]
    simp only [List.drop_one]
    have hconv : ∀ a : List Char, (∀ q ∈ out, q.1 ≠ a) →
        a ∉ List.map Prod.fst out := by
      intro a h hcon
      obtain ⟨q, hq, he⟩ := List.mem_map.mp hcon
      exact h q hq he
    have hconv2 : ∀ a : List Char, a ∉ List.map Prod.fst out →
        (∀ q ∈ out, q.1 ≠ a) := by
      intro a h q hq he
      exact h (List.mem_map.mpr ⟨q, hq, he⟩)
    by_cases hplus : charAtNul s 0 = '+'
    · simp only [if_pos hplus]
      by_cases hmem : (fn ++ '.' :: s.tail) ∈ env.fs
      · by_cases hout : ∀ q ∈ out, q.1 ≠ fn ++ '.' :: s.tail
        · have h1 : (fn ++ '.' :: s.tail) ∈ env.fs ∧
              ∀ q ∈ out, q.1 ≠ fn ++ '.' :: s.tail := ⟨hmem, hout⟩
          have h2 : (fn ++ '.' :: s.tail) ∈ env.fs ∧
              (fn ++ '.' :: s.tail) ∉ List.map Prod.fst out :=
            ⟨hmem, hconv _ hout⟩
          rw [if_pos h1, if_pos h2, ih]
          simp
        · have h1 : ¬ ((fn ++ '.' :: s.tail) ∈ env.fs ∧
              ∀ q ∈ out, q.1 ≠ fn ++ '.' :: s.tail) := fun hcon => hout hcon.2
          have h2 : ¬ ((fn ++ '.' :: s.tail) ∈ env.fs ∧
              (fn ++ '.' :: s.tail) ∉ List.map Prod.fst out) :=
            fun hcon => hout (hconv2 _ hcon.2)
          rw [if_neg h1, if_neg h2, ih]
      · have h1 : ¬ ((fn ++ '.' :: s.tail) ∈ env.fs ∧
            ∀ q ∈ out, q.1 ≠ fn ++ '.' :: s.tail) := fun hcon => hmem hcon.1
        have h2 : ¬ ((fn ++ '.' :: s.tail) ∈ env.fs ∧
            (fn ++ '.' :: s.tail) ∉ List.map Prod.fst out) :=
          fun hcon => hmem hcon.1
        rw [if_neg h1, if_neg h2, ih]
    · simp only [if_neg hplus]
      by_cases hmem : (removeExtension fn ++ '.' :: s) ∈ env.fs
      · by_cases hout : ∀ q ∈ out, q.1 ≠ removeExtension fn ++ '.' :: s
        · have h1 : (removeExtension fn ++ '.' :: s) ∈ env.fs ∧
              ∀ q ∈ out, q.1 ≠ removeExtension fn ++ '.' :: s := ⟨hmem, hout⟩
          have h2 : (removeExtension fn ++ '.' :: s) ∈ env.fs ∧
              (removeExtension fn ++ '.' :: s) ∉ List.map Prod.fst out :=
            ⟨hmem, hconv _ hout⟩
          rw [if_pos h1, if_pos h2, ih]
          simp
        · have h1 : ¬ ((removeExtension fn ++ '.' :: s) ∈ env.fs ∧
              ∀ q ∈ out, q.1 ≠ removeExtension fn ++ '.' :: s) :=
            fun hcon => hout hcon.2
          have h2 : ¬ ((removeExtension fn ++ '.' :: s) ∈ env.fs ∧
              (removeExtension fn ++ '.' :: s) ∉ List.map Prod.fst out) :=
            fun hcon => hout (hconv2 _ hcon.2)
          rw [if_neg h1, if_neg h2, ih]
      · have h1 : ¬ ((removeExtension fn ++ '.' :: s) ∈ env.fs ∧
            ∀ q ∈ out, q.1 ≠ removeExtension fn ++ '.' :: s) :=
          fun hcon => hmem hcon.1
        have h2 : ¬ ((removeExtension fn ++ '.' :: s) ∈ env.fs ∧
            (removeExtension fn ++ '.' :: s) ∉ List.map Prod.fst out) :=
          fun hcon => hmem hcon.1
        rw [if_neg h1, if_neg h2, ih]

theorem sidecar_phase_shape (env : Env) (p : Params) (fn np : List Char) :
    sidecar_phase env p fn np =
      (fn, np) :: param_file_part env fn np
        ++ sidecar_pairs_spec env.fs fn np p.sidecars
            (((fn, np) :: param_file_part env fn np).map Prod.fst) := by
  unfold sidecar_phase
  by_cases hsc : p.sidecars = []
  · rw [if_pos hsc, hsc]
    simp [sidecar_pairs_spec]
  · rw [if_neg hsc, sidecar_loop_eq_spec]

/-- Claim C3 (amended): when the computed destination already exists,
the skip policy yields the empty plan; the rename policy probes
stem_1.ext, stem_2.ext, ... (each joined under the source file's
directory, which is the destination directory whenever the computed
name is relative) until the first unused path, adopts it as the primary
destination, and derives all following pairs from that resolved
path. -/
theorem conflict_policy_resolution (env : Env) (p : Params)
    (fd : FramesMetaData)
    (hconf : computed_newpath p fd ∈ env.fs) :
    (p.on_existing = OnExistingAction.skip → get_targets env p fd = []) ∧
    (p.on_existing = OnExistingAction.rename →
      ∃ i, 1 ≤ i ∧
        rename_candidate_path p fd i ∉ env.fs ∧
        (∀ j, 1 ≤ j → j < i → rename_candidate_path p fd j ∈ env.fs) ∧
        get_targets env p fd =
          sidecar_phase env p fd.fileName (rename_candidate_path p fd i) ∧
        (get_targets env p fd).head? =
          some (fd.fileName, rename_candidate_path p fd i)) := by
  constructor
  · intro hsk
    simp only [get_targets, if_pos hconf, hsk]
  · intro hrn
    obtain ⟨k, hk, hfree⟩ := candidate_free_exists p fd env.fs.length env.fs
      rfl 1
    obtain ⟨k', hk', heq, hfree', hmin⟩ := probe_loop_least env p fd
      (env.fs.length + 1) 1 ⟨k, by omega, hfree⟩
    have hmain : get_targets env p fd =
        sidecar_phase env p fd.fileName
          (rename_candidate_path p fd (1 + k')) := by
      simp only [get_targets, if_pos hconf, hrn]
      rw [heq]
    refine ⟨1 + k', by omega, hfree', ?_, hmain, ?_⟩
    · intro j h1j hjlt
      have := hmin (j - 1) (by omega)
      rwa [(by omega : 1 + (j - 1) = j)] at this
    · rw [hmain, sidecar_phase_shape]
      rfl

/-- Counterexample to C3 as stated: with an absolute base directory the
computed destination "/out/x.cr2" exists, yet the renamed candidate is
probed and adopted at "src/out/x_1.cr2", under the source file's
directory rather than in the destination directory "/out". -/
theorem conflict_rename_probe_counterexample :
    computed_newpath pAbs fdAbs = cs "/out/x.cr2" ∧
    computed_newpath pAbs fdAbs ∈ envAbs.fs ∧
    pAbs.on_existing = OnExistingAction.rename ∧
    get_targets envAbs pAbs fdAbs = [(cs "src/a.cr2", cs "src/out/x_1.cr2")] ∧
    path_get_dirname (cs "src/out/x_1.cr2") = cs "src/out" ∧
    path_get_dirname (cs "/out/x.cr2") = cs "/out" ∧
    (cs "src/out" : List Char) ≠ cs "/out" := by
  decide

/-- Witness for C3's amended resolution in the relative-basedir
scenario, where "d/out/x.cr2" exists and "d/out/x_1.cr2" is free. -/
theorem conflict_policy_resolution_witness :
    (pRel.on_existing = OnExistingAction.skip →
      get_targets envRel pRel fdRel = []) ∧
    (pRel.on_existing = OnExistingAction.rename →
      ∃ i, 1 ≤ i ∧
        rename_candidate_path pRel fdRel i ∉ envRel.fs ∧
        (∀ j, 1 ≤ j → j < i → rename_candidate_path pRel fdRel j ∈ envRel.fs) ∧
        get_targets envRel pRel fdRel =
          sidecar_phase envRel pRel fdRel.fileName
            (rename_candidate_path pRel fdRel i) ∧
        (get_targets envRel pRel fdRel).head? =
          some (fdRel.fileName, rename_candidate_path pRel fdRel i)) :=
  conflict_policy_resolution envRel pRel fdRel (by decide)

/-- Claim C4: a non-skipped plan lists the primary pair first, then the
parameter-file pair when that sidecar exists, then one pair per
configured suffix ('+' appending after the full name, otherwise
replacing the extension), included only when the source exists and is
not already a source in the plan. -/
theorem plan_targets_order (env : Env) (p : Params) (fd : FramesMetaData)
    (h : get_targets env p fd ≠ []) :
    ∃ np, get_targets env p fd =
      (fd.fileName, np) :: param_file_part env fd.fileName np
        ++ sidecar_pairs_spec env.fs fd.fileName np p.sidecars
            (((fd.fileName, np) :: param_file_part env fd.fileName np).map
              Prod.fst) := by
  by_cases hex : computed_newpath p fd ∈ env.fs
  · cases hoe : p.on_existing with
    | skip =>
      exfalso
      apply h
      simp only [get_targets, if_pos hex, hoe]
    | rename =>
      refine ⟨(probe_loop env p fd 1 (env.fs.length + 1)).2, ?_⟩
      have hgt : get_targets env p fd = sidecar_phase env p fd.fileName
          (probe_loop env p fd 1 (env.fs.length + 1)).2 := by
        simp only [get_targets, if_pos hex, hoe]
      rw [hgt]
      exact sidecar_phase_shape env p fd.fileName _
  · refine ⟨computed_newpath p fd, ?_⟩
    have hgt : get_targets env p fd = sidecar_phase env p fd.fileName
        (computed_newpath p fd) := by
      simp only [get_targets, if_neg hex]
    rw [hgt]
    exact sidecar_phase_shape env p fd.fileName _

/-- Witness for C4 in a scenario with an existing parameter file, an
existing replace-extension sidecar and a missing append-style
sidecar. -/
theorem plan_targets_order_witness :
    ∃ np, get_targets envPlan pPlan fdPlan =
      (fdPlan.fileName, np) :: param_file_part envPlan fdPlan.fileName np
        ++ sidecar_pairs_spec envPlan.fs fdPlan.fileName np pPlan.sidecars
            (((fdPlan.fileName, np) ::
              param_file_part envPlan fdPlan.fileName np).map Prod.fst) :=
  plan_targets_order envPlan pPlan fdPlan (by decide)

end ART
